import Mathlib

/-!
Verification of the mitt event emitter (src/index.ts) against its
specification.

The embedding models the data of the TypeScript source directly:

* JS functions and context objects are opaque values compared by identity
  (`===`); we model both as `Nat` identifiers.
* A `HandlerListItem` `{ fn, ctx?, once? }` becomes the structure `Reg`.
  An absent `ctx` (`undefined`) is `Option.none`; `once` is a `Bool`
  (JS truthiness of `undefined`/`false` coincide on `if (once)`).
* The JS `Map` (`EventHandlerMap`) becomes an insertion-ordered
  association list with first-match `get` and replace-in-place `set`,
  exactly the observable behaviour of `Map.get`/`Map.set` (a `Map` never
  holds duplicate keys, so replace-first equals replace-the-entry).
* Handlers may re-enter the registry during dispatch (`on`, `off`) and
  may throw; a handler body is modelled as a list of primitive actions,
  interpreted against the live registry.  The claims under verification
  exercise registry mutation and exceptions during dispatch, never a
  nested `emit`, so the action alphabet is `on`/`off`/`throw`.
* `emit` follows the source line by line: snapshot (`slice()`) of the
  type list, invocation in snapshot order, once-removal through `off`
  against the live map, then a second pass over the `'*'` list read
  from the post-pass map, skipped entirely if a handler threw.

Invocations are recorded in a trace; `Ev.invoke` is the single-argument
call `fn.call(ctx, evt)` of the type pass, `Ev.invokeWild` the
two-argument call `fn.call(ctx, type, evt)` of the wildcard pass.
-/

namespace Mitt

/-- Event keys: `string | symbol` in the source, modelled as strings.
The wildcard key is the string `"*"`. -/
abbrev Key := String

/-- One handler registration, the source's `HandlerListItem`:
`{ fn, ctx?, once? }`.  `fn` and `ctx` are opaque identities. -/
structure Reg where
  fn : Nat
  ctx : Option Nat
  once : Bool
deriving DecidableEq, Repr

/-- The handler map `EventHandlerMap`: a JS `Map` from keys to ordered
registration lists, as an insertion-ordered association list. -/
abbrev Registry := List (Key × List Reg)

/-- JS `Map.get`: the value of the (unique) entry with this key,
`undefined` (`none`) when absent. -/
def mapGet : Registry → Key → Option (List Reg)
  | [], _ => none
  | p :: rest, k => if p.1 == k then some p.2 else mapGet rest k

/-- JS `Map.set`: replace the value of the existing entry for the key in
place, otherwise append a new entry (insertion order). -/
def mapSet : Registry → Key → List Reg → Registry
  | [], k, v => [(k, v)]
  | p :: rest, k, v => if p.1 == k then (k, v) :: rest else p :: mapSet rest k v

/-- The registration list dispatch sees for a key: the stored list, or
empty when the key is absent. -/
def listOf (m : Registry) (k : Key) : List Reg :=
  (mapGet m k).getD []

/-- The predicate of `off`'s `findIndex`:
`item.fn === handler && item.ctx === context`. -/
def pairMatch (f : Nat) (c : Option Nat) (r : Reg) : Bool :=
  r.fn == f && r.ctx == c

/-- Effect of `handlers.splice(handlers.findIndex(...) >>> 0, 1)`:
remove the first registration matching the (callback, context) pair; when
`findIndex` yields `-1`, `-1 >>> 0` is `2^32 - 1` and the splice removes
nothing. -/
def removeFirst : List Reg → Nat → Option Nat → List Reg
  | [], _, _ => []
  | r :: rest, f, c => if pairMatch f c r then rest else r :: removeFirst rest f c

/-- The factory `mitt(all?)`: `all = all || new Map()`; the supplied map
is used directly as the registry. -/
def mitt (all : Option Registry) : Registry :=
  all.getD []

/-- The `on(type, handler, context?, once?)` method: push a new
registration onto the existing list (an empty array is truthy, so a
present-but-empty list is pushed to), or set a fresh one-element list. -/
def on' (m : Registry) (t : Key) (f : Nat) (c : Option Nat) (o : Bool) : Registry :=
  match mapGet m t with
  | some handlers => mapSet m t (handlers ++ [⟨f, c, o⟩])
  | none => mapSet m t [⟨f, c, o⟩]

/-- The `off(type, handler?, context?)` method: nothing when the key is
absent; with a handler, splice out the first (callback, context) match;
without, set the key's list to empty. -/
def off (m : Registry) (t : Key) (f : Option Nat) (c : Option Nat) : Registry :=
  match mapGet m t with
  | some handlers =>
    match f with
    | some fn => mapSet m t (removeFirst handlers fn c)
    | none => mapSet m t []
  | none => m

/-- One recorded handler invocation.  `invoke` is the one-argument call
`fn.call(ctx, evt)` of the type-specific pass; `invokeWild` the
two-argument call `fn.call(ctx, type, evt)` of the wildcard pass. -/
inductive Ev where
  | invoke (fn : Nat) (ctx : Option Nat) (payload : Nat)
  | invokeWild (fn : Nat) (ctx : Option Nat) (type : Key) (payload : Nat)
deriving DecidableEq, Repr

/-- Primitive actions a handler body may perform on the registry during
its invocation. -/
inductive Act where
  | actOn (t : Key) (f : Nat) (c : Option Nat) (o : Bool)
  | actOff (t : Key) (f : Option Nat) (c : Option Nat)
  | actThrow (e : Nat)
deriving DecidableEq, Repr

/-- Behaviour environment: what the function with a given identity does
when invoked. -/
abbrev Env := Nat → List Act

/-- Result of a handler invocation or a whole dispatch: normal
completion, or a propagating thrown error. -/
inductive Outcome where
  | ok
  | thrown (e : Nat)
deriving DecidableEq, Repr

/-- Result of a dispatch pass: final registry, recorded invocations in
order, and whether an error is propagating. -/
structure Res where
  reg : Registry
  trace : List Ev
  out : Outcome
deriving DecidableEq, Repr

/-- Run a handler body against the live registry; a throw aborts the
remainder of the body and propagates. -/
def runActs : Registry → List Act → Registry × Outcome
  | s, [] => (s, .ok)
  | s, .actOn t f c o :: rest => runActs (on' s t f c o) rest
  | s, .actOff t f c :: rest => runActs (off s t f c) rest
  | s, .actThrow e :: _ => (s, .thrown e)

/-- The invocation event for one snapshot entry: one argument on the
type-specific pass, two on the wildcard pass. -/
def mkEv (wild : Bool) (t : Key) (p : Nat) (r : Reg) : Ev :=
  if wild then .invokeWild r.fn r.ctx t p else .invoke r.fn r.ctx p

/-- The key the once-removal targets: `this.off(type, fn, ctx)` on the
type-specific pass, `this.off('*', fn, ctx)` on the wildcard pass. -/
def liveKey (t : Key) (wild : Bool) : Key :=
  if wild then "*" else t

/-- One dispatch pass, the body of `handlers.slice().map(...)`: iterate
the snapshot; for each entry invoke the handler against the live
registry, then, if the entry's `once` flag is set and the invocation
returned normally, remove it from the live list through `off`.  A throw
stops the pass at once (no once-removal for the thrower, no later
entries). -/
def runPass (env : Env) (t : Key) (p : Nat) (wild : Bool) : Registry → List Reg → Res
  | s, [] => ⟨s, [], .ok⟩
  | s, r :: rest =>
    match runActs s (env r.fn) with
    | (s1, .ok) =>
      let s2 := if r.once then off s1 (liveKey t wild) (some r.fn) r.ctx else s1
      let res := runPass env t p wild s2 rest
      ⟨res.reg, mkEv wild t p r :: res.trace, res.out⟩
    | (s1, .thrown e) => ⟨s1, [mkEv wild t p r], .thrown e⟩

/-- The `emit(type, evt)` method: snapshot pass over the type's list,
then — only when no error is propagating — a snapshot pass over the
`'*'` list as read from the registry left by the first pass. -/
def emit (env : Env) (s : Registry) (t : Key) (p : Nat) : Res :=
  let pass1 :=
    match mapGet s t with
    | some handlers => runPass env t p false s handlers
    | none => ⟨s, [], .ok⟩
  match pass1.out with
  | .ok =>
    match mapGet pass1.reg "*" with
    | some handlers =>
      let pass2 := runPass env t p true pass1.reg handlers
      ⟨pass2.reg, pass1.trace ++ pass2.trace, pass2.out⟩
    | none => pass1
  | .thrown _ => pass1

/-- The environment of handlers that do nothing when invoked. -/
def passiveEnv : Env := fun _ => []

/-- The registry effect of one snapshot entry on a pass that completed
its invocation: the once-removal, when the flag is set. -/
def onceOff (k : Key) (s : Registry) (r : Reg) : Registry :=
  if r.once then off s k (some r.fn) r.ctx else s

/-- The registry effect of a whole pass of passive (non-mutating,
non-throwing) handlers: the once-removals in snapshot order. -/
def passFold (k : Key) (s : Registry) (l : List Reg) : Registry :=
  l.foldl (onceOff k) s

/-- What `emit` produces when every registered handler is passive: the
type-pass snapshot invoked in order with one argument, then the wildcard
list as left by the type pass, invoked in order with two arguments; the
registry undergoes only the once-removals of the two passes. -/
def emitSpecPassive (s : Registry) (t : Key) (p : Nat) : Res :=
  let l1 := listOf s t
  let m1 := passFold t s l1
  let l2 := listOf m1 "*"
  let m2 := passFold "*" m1 l2
  ⟨m2, l1.map (mkEv false t p) ++ l2.map (mkEv true t p), .ok⟩

/-- The registry left behind by one passive dispatch: the once-removals
of the type pass, then those of the wildcard pass over the wildcard list
the type pass left. -/
def emitRegPassive (s : Registry) (t : Key) : Registry :=
  passFold "*" (passFold t s (listOf s t)) (listOf (passFold t s (listOf s t)) "*")

/-- Actions that only touch the registry (the re-entrant `on`/`off`
calls a handler may make), as opposed to throwing. -/
def isReg : Act → Bool
  | .actOn _ _ _ _ => true
  | .actOff _ _ _ => true
  | .actThrow _ => false

/-- Whether a recorded invocation called the function identity `f` bound
to context `c`, in either the one-argument or the two-argument form. -/
def evMatch (f : Nat) (c : Option Nat) : Ev → Bool
  | .invoke f' c' _ => f' == f && c' == c
  | .invokeWild f' c' _ _ => f' == f && c' == c

/-! Basic lemmas about the map model. -/

theorem mapGet_mapSet_self (m : Registry) (k : Key) (v : List Reg) :
    mapGet (mapSet m k v) k = some v := by
  induction m with
  | nil => simp [mapSet, mapGet]
  | cons p rest ih =>
    simp only [mapSet]
    split
    · simp [mapGet]
    · next h => simp only [mapGet, h, if_false]; exact ih

theorem mapGet_mapSet_ne (m : Registry) (k k' : Key) (v : List Reg) (h : k' ≠ k) :
    mapGet (mapSet m k v) k' = mapGet m k' := by
  induction m with
  | nil => simp [mapSet, mapGet, beq_eq_false_iff_ne.mpr (Ne.symm h)]
  | cons p rest ih =>
    simp only [mapSet]
    split
    · next hp =>
      have hp' : p.1 = k := by simpa using hp
      simp [mapGet, hp', beq_eq_false_iff_ne.mpr (Ne.symm h)]
    · next hp =>
      simp only [mapGet]
      split
      · rfl
      · exact ih

theorem mapSet_self (m : Registry) (k : Key) (v : List Reg) (h : mapGet m k = some v) :
    mapSet m k v = m := by
  induction m with
  | nil => simp [mapGet] at h
  | cons p rest ih =>
    simp only [mapGet] at h
    simp only [mapSet]
    split
    · next hp =>
      rw [if_pos hp] at h
      obtain ⟨a, b⟩ := p
      have ha : a = k := by simpa using hp
      have hb : b = v := by simpa using h
      simp [ha, hb]
    · next hp =>
      rw [if_neg hp] at h
      rw [ih h]

theorem listOf_on_self (m : Registry) (t : Key) (f : Nat) (c : Option Nat) (o : Bool) :
    listOf (on' m t f c o) t = listOf m t ++ [⟨f, c, o⟩] := by
  unfold on' listOf
  cases hg : mapGet m t with
  | some hs => simp [mapGet_mapSet_self]
  | none => simp [mapGet_mapSet_self]

theorem mapGet_on_ne (m : Registry) (t : Key) (f : Nat) (c : Option Nat) (o : Bool)
    (k : Key) (h : k ≠ t) : mapGet (on' m t f c o) k = mapGet m k := by
  unfold on'
  cases hg : mapGet m t <;> simp [mapGet_mapSet_ne _ _ _ _ h]

theorem mapGet_off_ne (m : Registry) (t : Key) (f : Option Nat) (c : Option Nat)
    (k : Key) (h : k ≠ t) : mapGet (off m t f c) k = mapGet m k := by
  unfold off
  cases hg : mapGet m t with
  | some hs => cases f <;> simp [mapGet_mapSet_ne _ _ _ _ h]
  | none => rfl

theorem listOf_off_some (m : Registry) (t : Key) (fn : Nat) (c : Option Nat) :
    listOf (off m t (some fn) c) t = removeFirst (listOf m t) fn c := by
  unfold off listOf
  cases hg : mapGet m t with
  | some hs => simp [mapGet_mapSet_self]
  | none => simp [removeFirst, hg]

theorem listOf_off_none (m : Registry) (t : Key) (c : Option Nat) :
    listOf (off m t none c) t = [] := by
  unfold off listOf
  cases hg : mapGet m t with
  | some hs => simp [mapGet_mapSet_self]
  | none => simp [hg]

theorem mapGet_off_none_of_isSome (m : Registry) (t : Key) (c : Option Nat)
    (h : (mapGet m t).isSome) : mapGet (off m t none c) t = some [] := by
  unfold off
  cases hg : mapGet m t with
  | some hs => simp [mapGet_mapSet_self]
  | none => rw [hg] at h; simp at h

theorem off_absent (m : Registry) (t : Key) (f : Option Nat) (c : Option Nat)
    (h : mapGet m t = none) : off m t f c = m := by
  unfold off
  rw [h]

/-! Lemmas about `removeFirst`, the splice of `off`. -/

theorem removeFirst_of_forall_ne (l : List Reg) (f : Nat) (c : Option Nat)
    (h : ∀ r ∈ l, pairMatch f c r = false) : removeFirst l f c = l := by
  induction l with
  | nil => rfl
  | cons r rest ih =>
    have h0 : pairMatch f c r = false := h r (List.mem_cons_self r rest)
    have ih' := ih (fun x hx => h x (List.mem_cons_of_mem _ hx))
    simp [removeFirst, h0, ih']

theorem removeFirst_append_match (l1 l2 : List Reg) (f : Nat) (c : Option Nat) (o : Bool)
    (h : ∀ r ∈ l1, pairMatch f c r = false) :
    removeFirst (l1 ++ ⟨f, c, o⟩ :: l2) f c = l1 ++ l2 := by
  induction l1 with
  | nil => simp [removeFirst, pairMatch]
  | cons r rest ih =>
    have h0 : pairMatch f c r = false := h r (List.mem_cons_self r rest)
    have ih' := ih (fun x hx => h x (List.mem_cons_of_mem _ hx))
    simp [removeFirst, h0, ih']

theorem filter_removeFirst_of_ne (l : List Reg) (f f' : Nat) (c c' : Option Nat)
    (h : ¬(f' = f ∧ c' = c)) :
    (removeFirst l f' c').filter (pairMatch f c) = l.filter (pairMatch f c) := by
  induction l with
  | nil => rfl
  | cons r rest ih =>
    simp only [removeFirst]
    split
    · next hm =>
      have h1 : r.fn = f' ∧ r.ctx = c' := by simpa [pairMatch] using hm
      have h2 : pairMatch f c r = false := by
        simp only [pairMatch, h1.1, h1.2]
        simp only [Bool.and_eq_false_iff, beq_eq_false_iff_ne, ne_eq]
        tauto
      simp [List.filter, h2]
    · next hm =>
      simp only [List.filter]
      cases hq : pairMatch f c r <;> simp [ih]

theorem filter_removeFirst_self (l : List Reg) (f : Nat) (c : Option Nat) :
    (removeFirst l f c).filter (pairMatch f c) = (l.filter (pairMatch f c)).tail := by
  induction l with
  | nil => rfl
  | cons r rest ih =>
    simp only [removeFirst]
    split
    · next hm => simp [List.filter, hm]
    · next hm =>
      have hm' : pairMatch f c r = false := by
        cases hq : pairMatch f c r
        · rfl
        · exact absurd hq hm
      simp [List.filter, hm', ih]

theorem mem_removeFirst_of_ne (l : List Reg) (f' : Nat) (c' : Option Nat) (r : Reg)
    (hr : r ∈ l) (h : pairMatch f' c' r = false) : r ∈ removeFirst l f' c' := by
  induction l with
  | nil => simp at hr
  | cons a rest ih =>
    simp only [removeFirst]
    split
    · next hm =>
      rcases List.mem_cons.mp hr with rfl | hmem
      · rw [hm] at h; simp at h
      · exact hmem
    · next hm =>
      rcases List.mem_cons.mp hr with rfl | hmem
      · exact List.mem_cons_self _ _
      · exact List.mem_cons_of_mem _ (ih hmem)

theorem pairMatch_false_iff (f : Nat) (c : Option Nat) (r : Reg) :
    pairMatch f c r = false ↔ ¬(r.fn = f ∧ r.ctx = c) := by
  simp [pairMatch]

/-! Dispatch-level lemmas.  For handlers that do not throw, a pass over
a snapshot only mutates the registry through the once-removals, i.e.
through a fold of `off` calls against the pass's live key. -/

theorem passFold_cons (k : Key) (s : Registry) (r : Reg) (l : List Reg) :
    passFold k s (r :: l) = passFold k (onceOff k s r) l := rfl

/-- Reformulation of `emit` through `listOf`: an absent key behaves as
an empty snapshot, and an absent wildcard entry as an empty wildcard
snapshot. -/
theorem emit_eq (env : Env) (s : Registry) (t : Key) (p : Nat) :
    emit env s t p =
      (fun pass1 =>
        match pass1.out with
        | .ok =>
          let pass2 := runPass env t p true pass1.reg (listOf pass1.reg "*")
          ⟨pass2.reg, pass1.trace ++ pass2.trace, pass2.out⟩
        | .thrown _ => pass1)
      (runPass env t p false s (listOf s t)) := by
  unfold emit
  cases hg : mapGet s t with
  | none =>
    have h1 : listOf s t = [] := by simp [listOf, hg]
    rw [h1]
    simp only [runPass]
    cases hg2 : mapGet s "*" with
    | none =>
      have h2 : listOf s "*" = [] := by simp [listOf, hg2]
      rw [h2]
      simp [runPass]
    | some hs2 =>
      have h2 : listOf s "*" = hs2 := by simp [listOf, hg2]
      rw [h2]
  | some hs =>
    have h1 : listOf s t = hs := by simp [listOf, hg]
    rw [h1]
    cases ho : (runPass env t p false s hs).out with
    | thrown e => simp [ho]
    | ok =>
      simp only [ho]
      cases hg2 : mapGet (runPass env t p false s hs).reg "*" with
      | none =>
        have h2 : listOf (runPass env t p false s hs).reg "*" = [] := by
          simp [listOf, hg2]
        rw [h2]
        simp only [runPass, List.append_nil]
        rw [← ho]
      | some hs2 =>
        have h2 : listOf (runPass env t p false s hs).reg "*" = hs2 := by
          simp [listOf, hg2]
        rw [h2]

theorem runPass_passive (env : Env) (t : Key) (p : Nat) (wild : Bool)
    (henv : ∀ i, env i = []) :
    ∀ (l : List Reg) (s : Registry),
      runPass env t p wild s l =
        ⟨passFold (liveKey t wild) s l, l.map (mkEv wild t p), .ok⟩ := by
  intro l
  induction l with
  | nil => intro s; rfl
  | cons r rest ih =>
    intro s
    simp only [runPass, henv r.fn, runActs]
    rw [ih]
    simp [passFold_cons, onceOff]

theorem emit_passive (env : Env) (s : Registry) (t : Key) (p : Nat)
    (henv : ∀ i, env i = []) :
    emit env s t p = emitSpecPassive s t p := by
  rw [emit_eq]
  rw [runPass_passive env t p false henv]
  simp only []
  rw [runPass_passive env t p true henv]
  unfold emitSpecPassive liveKey
  simp

/-! Handlers that mutate the registry but never throw. -/

theorem runActs_regOnly : ∀ (acts : List Act) (s : Registry),
    (∀ a ∈ acts, isReg a = true) → ∃ s', runActs s acts = (s', .ok) := by
  intro acts
  induction acts with
  | nil => intro s _; exact ⟨s, rfl⟩
  | cons a rest ih =>
    intro s h
    cases a with
    | actOn t f c o =>
      simp only [runActs]
      exact ih _ (fun x hx => h x (List.mem_cons_of_mem _ hx))
    | actOff t f c =>
      simp only [runActs]
      exact ih _ (fun x hx => h x (List.mem_cons_of_mem _ hx))
    | actThrow e =>
      have := h _ (List.mem_cons_self _ _)
      simp [isReg] at this

theorem runPass_regOnly (env : Env) (t : Key) (p : Nat) (wild : Bool)
    (henv : ∀ i, ∀ a ∈ env i, isReg a = true) :
    ∀ (l : List Reg) (s : Registry),
      ∃ s', runPass env t p wild s l = ⟨s', l.map (mkEv wild t p), .ok⟩ := by
  intro l
  induction l with
  | nil => intro s; exact ⟨s, rfl⟩
  | cons r rest ih =>
    intro s
    obtain ⟨s1, hs1⟩ := runActs_regOnly (env r.fn) s (henv r.fn)
    simp only [runPass, hs1]
    obtain ⟨s', hs'⟩ :=
      ih (if r.once then off s1 (liveKey t wild) (some r.fn) r.ctx else s1)
    rw [hs']
    exact ⟨s', rfl⟩

/-! A pass that reaches a throwing handler. -/

theorem runPass_throw (env : Env) (t : Key) (p : Nat) (wild : Bool)
    (l2 : List Reg) (f : Nat) (c : Option Nat) (o : Bool) (e : Nat)
    (hthrow : env f = [.actThrow e]) :
    ∀ (l1 : List Reg) (s : Registry), (∀ r ∈ l1, env r.fn = []) →
      runPass env t p wild s (l1 ++ ⟨f, c, o⟩ :: l2) =
        ⟨passFold (liveKey t wild) s l1,
         l1.map (mkEv wild t p) ++ [mkEv wild t p ⟨f, c, o⟩], .thrown e⟩ := by
  intro l1
  induction l1 with
  | nil =>
    intro s _
    simp only [List.nil_append, runPass, hthrow, runActs]
    rfl
  | cons r rest ih =>
    intro s h
    simp only [List.cons_append, runPass, h r (List.mem_cons_self _ _), runActs]
    simp only [List.append_eq]
    rw [ih _ (fun x hx => h x (List.mem_cons_of_mem _ hx))]
    simp [passFold_cons, onceOff]

/-! Preservation lemmas for the once-removal fold. -/

theorem mapGet_passFold_ne (kt : Key) (k : Key) (h : k ≠ kt) :
    ∀ (l : List Reg) (s : Registry), mapGet (passFold kt s l) k = mapGet s k := by
  intro l
  induction l with
  | nil => intro s; rfl
  | cons r rest ih =>
    intro s
    rw [passFold_cons, ih]
    unfold onceOff
    split
    · exact mapGet_off_ne _ _ _ _ _ h
    · rfl

theorem listOf_passFold_ne (kt : Key) (k : Key) (h : k ≠ kt)
    (l : List Reg) (s : Registry) : listOf (passFold kt s l) k = listOf s k := by
  unfold listOf
  rw [mapGet_passFold_ne kt k h]

theorem mem_listOf_off (s : Registry) (k k' : Key) (f' : Nat) (c' : Option Nat)
    (r : Reg) (hr : r ∈ listOf s k') (h : pairMatch f' c' r = false) :
    r ∈ listOf (off s k (some f') c') k' := by
  by_cases hk : k' = k
  · subst hk
    rw [listOf_off_some]
    exact mem_removeFirst_of_ne _ _ _ _ hr h
  · unfold listOf
    rw [mapGet_off_ne _ _ _ _ _ hk]
    exact hr

theorem mem_listOf_passFold (kt : Key) (k' : Key) (r : Reg) :
    ∀ (l : List Reg) (s : Registry), r ∈ listOf s k' →
      (∀ x ∈ l, pairMatch x.fn x.ctx r = false) →
      r ∈ listOf (passFold kt s l) k' := by
  intro l
  induction l with
  | nil => intro s hr _; exact hr
  | cons x rest ih =>
    intro s hr h
    rw [passFold_cons]
    refine ih _ ?_ (fun y hy => h y (List.mem_cons_of_mem _ hy))
    unfold onceOff
    split
    · exact mem_listOf_off _ _ _ _ _ _ hr (h x (List.mem_cons_self _ _))
    · exact hr

theorem filter_listOf_off_of_ne (s : Registry) (k : Key) (f f' : Nat)
    (c c' : Option Nat) (h : ¬(f' = f ∧ c' = c)) :
    (listOf (off s k (some f') c') k).filter (pairMatch f c) =
      (listOf s k).filter (pairMatch f c) := by
  rw [listOf_off_some]
  exact filter_removeFirst_of_ne _ _ _ _ _ h

theorem passFold_filter_nil (kt : Key) (f : Nat) (c : Option Nat) :
    ∀ (l : List Reg) (s : Registry), (∀ r ∈ l, pairMatch f c r = false) →
      (listOf s kt).filter (pairMatch f c) = [] →
      (listOf (passFold kt s l) kt).filter (pairMatch f c) = [] := by
  intro l
  induction l with
  | nil => intro s _ hs; exact hs
  | cons r rest ih =>
    intro s h hs
    rw [passFold_cons]
    refine ih _ (fun y hy => h y (List.mem_cons_of_mem _ hy)) ?_
    unfold onceOff
    split
    · rw [filter_listOf_off_of_ne]
      · exact hs
      · exact (pairMatch_false_iff _ _ _).mp (h r (List.mem_cons_self _ _))
    · exact hs

theorem passFold_filter_unique (kt : Key) (f : Nat) (c : Option Nat) :
    ∀ (l : List Reg) (s : Registry),
      l.filter (pairMatch f c) = [⟨f, c, true⟩] →
      (listOf s kt).filter (pairMatch f c) = [⟨f, c, true⟩] →
      (listOf (passFold kt s l) kt).filter (pairMatch f c) = [] := by
  intro l
  induction l with
  | nil => intro s hl _; simp at hl
  | cons r rest ih =>
    intro s hl hs
    rw [passFold_cons]
    cases hm : pairMatch f c r with
    | false =>
      have hl' : rest.filter (pairMatch f c) = [⟨f, c, true⟩] := by
        simpa [List.filter_cons, hm] using hl
      refine ih _ hl' ?_
      unfold onceOff
      split
      · rw [filter_listOf_off_of_ne]
        · exact hs
        · exact (pairMatch_false_iff _ _ _).mp hm
      · exact hs
    | true =>
      have hr : r = ⟨f, c, true⟩ ∧ rest.filter (pairMatch f c) = [] := by
        have := hl
        simp only [List.filter_cons, hm, if_true] at this
        exact ⟨(List.cons_eq_cons.mp this).1, (List.cons_eq_cons.mp this).2⟩
      obtain ⟨rfl, hrest⟩ := hr
      have honce : (⟨f, c, true⟩ : Reg).once = true := rfl
      refine passFold_filter_nil kt f c rest _
        (fun y hy => by simpa using List.filter_eq_nil_iff.mp hrest y hy) ?_
      unfold onceOff
      rw [if_pos honce]
      show (listOf (off s kt (some f) c) kt).filter (pairMatch f c) = []
      rw [listOf_off_some, filter_removeFirst_self, hs]
      rfl

theorem mkEv_false (t : Key) (p : Nat) :
    mkEv false t p = fun r => Ev.invoke r.fn r.ctx p := rfl

theorem mkEv_true (t : Key) (p : Nat) :
    mkEv true t p = fun r => Ev.invokeWild r.fn r.ctx t p := rfl

theorem passFold_no_once (k : Key) :
    ∀ (l : List Reg) (s : Registry), (∀ r ∈ l, r.once = false) →
      passFold k s l = s := by
  intro l
  induction l with
  | nil => intro s _; rfl
  | cons r rest ih =>
    intro s h
    rw [passFold_cons]
    unfold onceOff
    rw [h r (List.mem_cons_self _ _)]
    simp only [Bool.false_eq_true, if_false]
    exact ih s (fun y hy => h y (List.mem_cons_of_mem _ hy))

theorem listOf_foldl_on (K : Key) :
    ∀ (regs : List Reg) (m0 : Registry),
      listOf (regs.foldl (fun s r => on' s K r.fn r.ctx r.once) m0) K =
        listOf m0 K ++ regs := by
  intro regs
  induction regs with
  | nil => intro m0; simp
  | cons r rest ih =>
    intro m0
    rw [List.foldl_cons, ih, listOf_on_self]
    simp

theorem filter_evMatch_map (f : Nat) (c : Option Nat) (w : Bool) (t : Key) (p : Nat)
    (l : List Reg) :
    (l.map (mkEv w t p)).filter (evMatch f c) =
      (l.filter (pairMatch f c)).map (mkEv w t p) := by
  induction l with
  | nil => rfl
  | cons r rest ih =>
    have hev : evMatch f c (mkEv w t p r) = pairMatch f c r := by
      cases w <;> rfl
    cases hq : pairMatch f c r <;>
      simp [List.filter_cons, List.map_cons, hev, hq, ih]

/-! Claim theorems. -/

/-- C3: for every ordinary key K (K ≠ '*'), with registered handlers that
do not mutate the registry, `emit(K, payload)` produces exactly the
one-argument invocations of K's registrations in registration order,
followed by the two-argument invocations `(K, payload)` of every handler
registered under the wildcard key, in their registration order — so each
wildcard handler is invoked, receives `(K, payload)`, and only runs after
all of K's type-specific handlers have completed. -/
theorem wildcard_invoked_after_specific (env : Env) (m : Registry) (K : Key) (p : Nat)
    (henv : ∀ i, env i = []) (hK : K ≠ "*") :
    (emit env m K p).trace =
      (listOf m K).map (fun r => Ev.invoke r.fn r.ctx p)
        ++ (listOf m "*").map (fun r => Ev.invokeWild r.fn r.ctx K p) := by
  rw [emit_passive env m K p henv]
  simp only [emitSpecPassive]
  rw [listOf_passFold_ne K "*" (Ne.symm hK)]
  rw [mkEv_false, mkEv_true]

/-- Witness for C3: `on('foo', A)`, `on('foo', B)`, `on('*', C)`,
`emit('foo', 42)` invokes A(42), B(42), then C('foo', 42). -/
theorem wildcard_invoked_after_specific_witness :
    (emit passiveEnv
        [("foo", [⟨1, none, false⟩, ⟨2, none, false⟩]), ("*", [⟨3, none, false⟩])]
        "foo" 42).trace =
      [Ev.invoke 1 none 42, Ev.invoke 2 none 42, Ev.invokeWild 3 none "foo" 42] := by
  have h := wildcard_invoked_after_specific passiveEnv
    [("foo", [⟨1, none, false⟩, ⟨2, none, false⟩]), ("*", [⟨3, none, false⟩])]
    "foo" 42 (fun _ => rfl) (by decide)
  exact h.trans rfl

/-- C9: the exposed map is the store itself.  The factory uses a supplied
map directly (`mitt (some m) = m`, no copy) and otherwise a fresh empty
map; and each registry operation equals the corresponding direct
manipulation of the exposed map: `on` is exactly a `set` of the appended
list, `off` exactly a `set` of the cleared or spliced list (or the
identity when the key is absent).  Hence any sequence of `on`/`off`
calls produces, field for field, the contents direct `set` calls on
`all` would produce. -/
theorem all_is_the_store :
    (∀ m, mitt (some m) = m)
    ∧ mitt none = []
    ∧ (∀ m K f c o, on' m K f c o = mapSet m K (listOf m K ++ [⟨f, c, o⟩]))
    ∧ (∀ m K c, off m K none c = if (mapGet m K).isSome then mapSet m K [] else m)
    ∧ (∀ m K f c, off m K (some f) c =
        if (mapGet m K).isSome then mapSet m K (removeFirst (listOf m K) f c) else m) := by
  refine ⟨fun m => rfl, rfl, ?_, ?_, ?_⟩
  · intro m K f c o
    unfold on' listOf
    cases hg : mapGet m K <;> simp
  · intro m K c
    unfold off
    cases hg : mapGet m K <;> simp
  · intro m K f c
    unfold off listOf
    cases hg : mapGet m K <;> simp

/-- C7: `off(K, h, ctx)` removes exactly the first registration in list
order whose callback and context both match (conjunct one), is a silent
no-op leaving the registry unchanged when nothing matches (conjunct
two), and never touches other keys (conjunct three).  Relative order of
the remaining registrations is preserved: the result is literally
`l1 ++ l2`. -/
theorem off_removes_first_match (m : Registry) (K : Key) (f : Nat) (c : Option Nat) :
    (∀ (l1 l2 : List Reg) (o : Bool),
        listOf m K = l1 ++ ⟨f, c, o⟩ :: l2 →
        (∀ r ∈ l1, pairMatch f c r = false) →
        listOf (off m K (some f) c) K = l1 ++ l2)
    ∧ ((∀ r ∈ listOf m K, pairMatch f c r = false) → off m K (some f) c = m)
    ∧ (∀ k, k ≠ K → mapGet (off m K (some f) c) k = mapGet m k) := by
  refine ⟨?_, ?_, ?_⟩
  · intro l1 l2 o hdec hne
    rw [listOf_off_some, hdec, removeFirst_append_match _ _ _ _ _ hne]
  · intro hne
    unfold off
    cases hg : mapGet m K with
    | some hs =>
      have hrf : removeFirst hs f c = hs := by
        refine removeFirst_of_forall_ne _ _ _ (fun r hr => hne r ?_)
        unfold listOf
        rw [hg]
        simpa using hr
      show mapSet m K (removeFirst hs f c) = m
      rw [hrf]
      exact mapSet_self m K hs hg
    | none => rfl
  · intro k hk
    exact mapGet_off_ne m K (some f) c k hk

/-- Witness for C7: removing `(7, no-context)` from a three-entry list
deletes only the first of the two matches and keeps the order of the
rest; a second identical call on a list with no match changes nothing;
other keys are untouched. -/
theorem off_removes_first_match_witness :
    listOf (off [("a", [⟨5, some 1, false⟩, ⟨7, none, false⟩, ⟨7, none, true⟩])]
        "a" (some 7) none) "a" = [⟨5, some 1, false⟩, ⟨7, none, true⟩]
    ∧ off [("a", [⟨5, some 1, false⟩])] "a" (some 7) none = [("a", [⟨5, some 1, false⟩])]
    ∧ mapGet (off [("a", [⟨7, none, false⟩])] "a" (some 7) none) "b" = none := by
  refine ⟨?_, ?_, ?_⟩
  · exact (off_removes_first_match
      [("a", [⟨5, some 1, false⟩, ⟨7, none, false⟩, ⟨7, none, true⟩])] "a" 7 none).1
      [⟨5, some 1, false⟩] [⟨7, none, true⟩] false rfl (by decide)
  · exact (off_removes_first_match [("a", [⟨5, some 1, false⟩])] "a" 7 none).2.1 (by decide)
  · exact (off_removes_first_match [("a", [⟨7, none, false⟩])] "a" 7 none).2.2 "b" (by decide)

/-- Counterexample to C6: calling `off('foo')` on a fresh emitter, where
`'foo'` is absent from the map, leaves `'foo'` absent — `off` does
nothing when `all.get(type)` is undefined, so the key is not left
"present with an empty list" as the claim requires. -/
theorem off_absent_key_stays_absent :
    mapGet (off (mitt none) "foo" none none) "foo" = none
    ∧ mapGet (off (mitt none) "foo" none none) "foo" ≠ some [] := by
  exact ⟨rfl, by decide⟩

/-- C6 amended: `off(K)` without a callback leaves K's effective handler
list empty in every case; when K was present (even with an empty list)
the key remains present mapped to an empty list, but when K was absent
the map is left unchanged and K stays absent.  Removal ignores context
and once-flags (the whole list is dropped), and a subsequent
`emit(K, x)` performs zero K-specific invocations: its trace consists of
wildcard invocations only. -/
theorem off_no_callback_clears (env : Env) (m : Registry) (K : Key) (c : Option Nat)
    (p : Nat) (henv : ∀ i, env i = []) :
    listOf (off m K none c) K = []
    ∧ ((mapGet m K).isSome → mapGet (off m K none c) K = some [])
    ∧ (mapGet m K = none → off m K none c = m)
    ∧ (emit env (off m K none c) K p).trace =
        (listOf (off m K none c) "*").map (fun r => Ev.invokeWild r.fn r.ctx K p) := by
  refine ⟨listOf_off_none m K c, mapGet_off_none_of_isSome m K c,
    off_absent m K none c, ?_⟩
  rw [emit_passive _ _ _ _ henv]
  simp only [emitSpecPassive]
  rw [listOf_off_none]
  rw [mkEv_true]
  show ([] : List Reg).map _ ++ _ = _
  rw [List.map_nil, List.nil_append]
  rfl

/-- Witness for C6 amended: clearing `'foo'` (registered with a context
and a once-flag) empties its list, keeps the key present, and the next
emit invokes nothing. -/
theorem off_no_callback_clears_witness :
    listOf (off [("foo", [⟨1, some 2, true⟩])] "foo" none none) "foo" = []
    ∧ mapGet (off [("foo", [⟨1, some 2, true⟩])] "foo" none none) "foo" = some []
    ∧ (emit passiveEnv (off [("foo", [⟨1, some 2, true⟩])] "foo" none none) "foo" 3).trace = [] := by
  have h := off_no_callback_clears passiveEnv [("foo", [⟨1, some 2, true⟩])]
    "foo" none 3 (fun _ => rfl)
  exact ⟨h.1, h.2.1 rfl, h.2.2.2.trans rfl⟩

/-- Counterexample to C5: with a single handler registered under `'*'`,
the direct call `emit('*', 3)` does invoke it — twice, in fact: once
with the single argument `3` on the type-specific pass (the key `'*'`
matches itself), then once with the two arguments `('*', 3)` on the
wildcard pass. -/
theorem emit_star_invokes_wildcard :
    (emit passiveEnv (on' (mitt none) "*" 7 none false) "*" 3).trace
      = [Ev.invoke 7 none 3, Ev.invokeWild 7 none "*" 3] := rfl

/-- C5 amended: `emit('*', payload)` does dispatch to the handlers
registered under `'*'`: each (here with no once-flags set, so the list
survives the first pass unchanged) is invoked twice, first with the
single argument `payload` in the type-specific pass, then with
`('*', payload)` in the wildcard pass. -/
theorem emit_star_double_invocation (env : Env) (m : Registry) (p : Nat)
    (henv : ∀ i, env i = []) (honce : ∀ r ∈ listOf m "*", r.once = false) :
    (emit env m "*" p).trace =
      (listOf m "*").map (fun r => Ev.invoke r.fn r.ctx p)
        ++ (listOf m "*").map (fun r => Ev.invokeWild r.fn r.ctx "*" p) := by
  rw [emit_passive _ _ _ _ henv]
  simp only [emitSpecPassive]
  rw [passFold_no_once "*" (listOf m "*") m honce]
  rw [mkEv_false, mkEv_true]

/-- Witness for C5 amended: a `'*'` handler with a context fires twice
on `emit('*', 3)`. -/
theorem emit_star_double_invocation_witness :
    (emit passiveEnv [("*", [⟨7, some 4, false⟩])] "*" 3).trace
      = [Ev.invoke 7 (some 4) 3, Ev.invokeWild 7 (some 4) "*" 3] := by
  have h := emit_star_double_invocation passiveEnv [("*", [⟨7, some 4, false⟩])] 3
    (fun _ => rfl) (by decide)
  exact h.trans rfl

/-- C10: when the same (callback, context) pair occupies K's list twice,
the earlier occurrence without the once-flag and the later occurrence
with it, one emit fires both occurrences, and the auto-removal triggered
by the later (once) occurrence deletes the first matching occurrence in
list order — the earlier, non-once registration — leaving the fired
once=true registration still in the list. -/
theorem once_removal_deletes_first_occurrence (env : Env) (m : Registry) (K : Key)
    (f : Nat) (c : Option Nat) (p : Nat)
    (henv : ∀ i, env i = []) (hK : K ≠ "*")
    (hlist : listOf m K = [⟨f, c, false⟩, ⟨f, c, true⟩]) :
    (emit env m K p).trace =
      [Ev.invoke f c p, Ev.invoke f c p]
        ++ (listOf m "*").map (fun r => Ev.invokeWild r.fn r.ctx K p)
    ∧ listOf (emit env m K p).reg K = [⟨f, c, true⟩] := by
  rw [emit_passive _ _ _ _ henv]
  simp only [emitSpecPassive]
  constructor
  · rw [listOf_passFold_ne K "*" (Ne.symm hK), hlist, mkEv_true]
    rfl
  · rw [listOf_passFold_ne "*" K hK, hlist]
    show listOf (onceOff K (onceOff K m ⟨f, c, false⟩) ⟨f, c, true⟩) K = _
    unfold onceOff
    simp only [Bool.false_eq_true, if_false, if_true]
    rw [listOf_off_some, hlist]
    simp [removeFirst, pairMatch]

/-- Witness for C10: registering `(1, no-context)` twice for `'foo'`,
second time with once=true, firing once: both fire, and the non-once
first occurrence is the one removed. -/
theorem once_removal_deletes_first_occurrence_witness :
    (emit passiveEnv [("foo", [⟨1, none, false⟩, ⟨1, none, true⟩])] "foo" 5).trace
      = [Ev.invoke 1 none 5, Ev.invoke 1 none 5]
    ∧ listOf (emit passiveEnv [("foo", [⟨1, none, false⟩, ⟨1, none, true⟩])] "foo" 5).reg "foo"
      = [⟨1, none, true⟩] := by
  have h := once_removal_deletes_first_occurrence passiveEnv
    [("foo", [⟨1, none, false⟩, ⟨1, none, true⟩])] "foo" 1 none 5
    (fun _ => rfl) (by decide) rfl
  exact ⟨h.1.trans rfl, h.2⟩

/-- Counterexample to C2: handler A (identity 1), registered for `'foo'`
before handler B (identity 2), removes B from the live list when
invoked; B is nevertheless still invoked in the same dispatch — `emit`
maps over the `slice()` snapshot taken before any removal, so
removed-before-their-turn entries are not skipped.  The final registry
confirms the removal itself did happen before B's turn. -/
theorem off_during_emit_does_not_skip :
    (emit (fun i => if i = 1 then [Act.actOff "foo" (some 2) none] else [])
        (on' (on' (mitt none) "foo" 1 none false) "foo" 2 none false) "foo" 5).trace
      = [Ev.invoke 1 none 5, Ev.invoke 2 none 5]
    ∧ listOf (emit (fun i => if i = 1 then [Act.actOff "foo" (some 2) none] else [])
        (on' (on' (mitt none) "foo" 1 none false) "foo" 2 none false) "foo" 5).reg "foo"
      = [⟨1, none, false⟩] := by
  exact ⟨rfl, rfl⟩

/-- C2 amended: during a single `emit(K, payload)` dispatch with
handlers that may re-enter `on`/`off` but do not throw, every entry of
the snapshot taken at dispatch start is invoked, in snapshot order, even
when an earlier handler removes it from the live list before its turn:
the trace begins with exactly one one-argument invocation per snapshot
entry. -/
theorem snapshot_entries_all_invoked (env : Env) (m : Registry) (K : Key) (p : Nat)
    (henv : ∀ i, ∀ a ∈ env i, isReg a = true) :
    ∃ rest, (emit env m K p).trace =
      (listOf m K).map (fun r => Ev.invoke r.fn r.ctx p) ++ rest := by
  rw [emit_eq]
  obtain ⟨s1, h1⟩ := runPass_regOnly env K p false henv (listOf m K) m
  obtain ⟨s2, h2⟩ := runPass_regOnly env K p true henv (listOf s1 "*") s1
  rw [h1]
  simp only [h2]
  exact ⟨(listOf s1 "*").map (mkEv true K p), by rw [mkEv_false]⟩

/-- Witness for C2 amended: every handler calls `off('foo', B)`; both
registered handlers still fire. -/
theorem snapshot_entries_all_invoked_witness :
    ∃ rest, (emit (fun _ => [Act.actOff "foo" (some 2) none])
        [("foo", [⟨1, none, false⟩, ⟨2, none, false⟩])] "foo" 5).trace
      = [Ev.invoke 1 none 5, Ev.invoke 2 none 5] ++ rest := by
  have h := snapshot_entries_all_invoked (fun _ => [Act.actOff "foo" (some 2) none])
    [("foo", [⟨1, none, false⟩, ⟨2, none, false⟩])] "foo" 5
    (by intro i a ha; simp at ha; subst ha; rfl)
  exact h

/-- Counterexample to C1: for K = `'*'` the claim fails.  A single
registration made via `on('*', h)` is invoked twice by `emit('*', 5)` —
once per pass — not "exactly once": the trace holds two invocations of
the handler identity 7. -/
theorem emit_star_registration_not_invoked_once :
    (emit passiveEnv (on' (mitt none) "*" 7 none false) "*" 5).trace
      = [Ev.invoke 7 none 5, Ev.invokeWild 7 none "*" 5]
    ∧ (emit passiveEnv (on' (mitt none) "*" 7 none false) "*" 5).trace.countP
        (evMatch 7 none) = 2 := by
  exact ⟨rfl, rfl⟩

theorem mapGet_foldl_on_ne (K k : Key) (h : k ≠ K) :
    ∀ (regs : List Reg) (m0 : Registry),
      mapGet (regs.foldl (fun s r => on' s K r.fn r.ctx r.once) m0) k = mapGet m0 k := by
  intro regs
  induction regs with
  | nil => intro m0; rfl
  | cons r rest ih =>
    intro m0
    rw [List.foldl_cons, ih, mapGet_on_ne _ _ _ _ _ _ h]

/-- C1 amended: for every key K other than the wildcard key, registering
H1..Hn for K in order via `on` (duplicates allowed, each an independent
registration) and emitting with passive handlers invokes H1..Hn in
exactly registration order, each exactly once, each with the single
argument `payload`.  The only further trace entries are the two-argument
invocations of the wildcard registrations the registry already held —
invocations of other registrations, not of H1..Hn. -/
theorem emit_invokes_in_registration_order (env : Env) (m0 : Registry) (K : Key)
    (regs : List Reg) (p : Nat)
    (henv : ∀ i, env i = []) (hK : K ≠ "*") (h0 : mapGet m0 K = none) :
    (emit env (regs.foldl (fun s r => on' s K r.fn r.ctx r.once) m0) K p).trace
      = regs.map (fun r => Ev.invoke r.fn r.ctx p)
        ++ (listOf m0 "*").map (fun r => Ev.invokeWild r.fn r.ctx K p) := by
  rw [emit_passive _ _ _ _ henv]
  simp only [emitSpecPassive]
  have hm : listOf (regs.foldl (fun s r => on' s K r.fn r.ctx r.once) m0) K = regs := by
    rw [listOf_foldl_on]
    unfold listOf
    rw [h0]
    rfl
  rw [hm]
  rw [listOf_passFold_ne K "*" (Ne.symm hK)]
  have hw : listOf (regs.foldl (fun s r => on' s K r.fn r.ctx r.once) m0) "*"
      = listOf m0 "*" := by
    unfold listOf
    rw [mapGet_foldl_on_ne K "*" (Ne.symm hK)]
  rw [hw, mkEv_false, mkEv_true]

/-- Witness for C1 amended: two registrations (distinct contexts) for
`'foo'` fire in order, once each, with the payload. -/
theorem emit_invokes_in_registration_order_witness :
    (emit passiveEnv (([⟨1, none, false⟩, ⟨2, some 3, false⟩] : List Reg).foldl
        (fun s r => on' s "foo" r.fn r.ctx r.once) []) "foo" 9).trace
      = [Ev.invoke 1 none 9, Ev.invoke 2 (some 3) 9] := by
  have h := emit_invokes_in_registration_order passiveEnv [] "foo"
    ([⟨1, none, false⟩, ⟨2, some 3, false⟩] : List Reg) 9 (fun _ => rfl) (by decide) rfl
  exact h.trans rfl

/-- C8: a handler that throws during the type-specific pass aborts the
dispatch: the thrown error becomes the outcome of `emit` (propagating
unmodified to the caller), the trace stops at the throwing invocation —
no later snapshot entry and no wildcard handler runs — and, because
once-removal happens only after a successful invocation, the throwing
registration itself (in particular a once=true one) is still in the
registry afterwards. -/
theorem throwing_handler_aborts_dispatch (env : Env) (m : Registry) (K : Key) (p : Nat)
    (l1 l2 : List Reg) (f : Nat) (c : Option Nat) (o : Bool) (e : Nat)
    (hsplit : listOf m K = l1 ++ ⟨f, c, o⟩ :: l2)
    (hpassive : ∀ r ∈ l1, env r.fn = [])
    (hthrow : env f = [Act.actThrow e])
    (hpair : ∀ r ∈ l1, pairMatch r.fn r.ctx ⟨f, c, o⟩ = false) :
    (emit env m K p).out = Outcome.thrown e
    ∧ (emit env m K p).trace = l1.map (fun r => Ev.invoke r.fn r.ctx p) ++ [Ev.invoke f c p]
    ∧ ⟨f, c, o⟩ ∈ listOf (emit env m K p).reg K := by
  rw [emit_eq, hsplit]
  rw [runPass_throw env K p false l2 f c o e hthrow l1 m hpassive]
  refine ⟨rfl, ?_, ?_⟩
  · show l1.map (mkEv false K p) ++ [mkEv false K p ⟨f, c, o⟩] = _
    rw [mkEv_false]
  · show ⟨f, c, o⟩ ∈ listOf (passFold K m l1) K
    refine mem_listOf_passFold K K _ l1 m ?_ hpair
    rw [hsplit]
    simp

/-- Witness for C8: a once=true handler that throws: `emit` reports the
thrown error, the registered wildcard handler never runs, and the
throwing once-registration survives in the registry. -/
theorem throwing_handler_aborts_dispatch_witness :
    (emit (fun _ => [Act.actThrow 9])
        [("foo", [⟨1, none, true⟩]), ("*", [⟨2, none, false⟩])] "foo" 5).out
      = Outcome.thrown 9
    ∧ (emit (fun _ => [Act.actThrow 9])
        [("foo", [⟨1, none, true⟩]), ("*", [⟨2, none, false⟩])] "foo" 5).trace
      = [Ev.invoke 1 none 5]
    ∧ (⟨1, none, true⟩ : Reg) ∈ listOf (emit (fun _ => [Act.actThrow 9])
        [("foo", [⟨1, none, true⟩]), ("*", [⟨2, none, false⟩])] "foo" 5).reg "foo" := by
  have h := throwing_handler_aborts_dispatch (fun _ => [Act.actThrow 9])
    [("foo", [⟨1, none, true⟩]), ("*", [⟨2, none, false⟩])] "foo" 5
    [] [] 1 none true 9 rfl (by simp) rfl (by simp)
  exact ⟨h.1, h.2.1.trans rfl, h.2.2⟩

/-- Counterexample to C4: registering the pair `(1, no-context)` for
`'foo'` twice — first without, then with the once-flag — and emitting:
the auto-removal matches by callback and context and so deletes the
first occurrence, leaving the once=true registration in the list after
the emit that invoked it; a second emit then invokes it again, with the
second payload, so the once registration is not invoked "exactly once
in total, with the payload of the first emit". -/
theorem once_duplicate_pair_counterexample :
    listOf (emit passiveEnv (on' (on' (mitt none) "foo" 1 none false) "foo" 1 none true)
        "foo" 5).reg "foo" = [⟨1, none, true⟩]
    ∧ (emit passiveEnv (emit passiveEnv
          (on' (on' (mitt none) "foo" 1 none false) "foo" 1 none true) "foo" 5).reg
        "foo" 6).trace = [Ev.invoke 1 none 6] := by
  exact ⟨rfl, rfl⟩

theorem emit_trace_filter (env : Env) (s : Registry) (t : Key) (p : Nat)
    (f : Nat) (c : Option Nat) (henv : ∀ i, env i = []) :
    ((emit env s t p).trace).filter (evMatch f c)
      = ((listOf s t).filter (pairMatch f c)).map (mkEv false t p)
        ++ ((listOf (passFold t s (listOf s t)) "*").filter (pairMatch f c)).map
            (mkEv true t p) := by
  rw [emit_passive _ _ _ _ henv]
  simp only [emitSpecPassive]
  rw [List.filter_append, filter_evMatch_map, filter_evMatch_map]

theorem once_filters (m : Registry) (K : Key) (f : Nat) (c : Option Nat)
    (h1 : (listOf m K).filter (pairMatch f c) = [⟨f, c, true⟩])
    (h2 : K ≠ "*" → (listOf m "*").filter (pairMatch f c) = []) :
    (listOf (passFold K m (listOf m K)) "*").filter (pairMatch f c) = []
    ∧ (listOf (emitRegPassive m K) K).filter (pairMatch f c) = []
    ∧ (listOf (emitRegPassive m K) "*").filter (pairMatch f c) = []
    ∧ (listOf (passFold K (emitRegPassive m K) (listOf (emitRegPassive m K) K))
        "*").filter (pairMatch f c) = [] := by
  by_cases hK : K = "*"
  · subst hK
    have FA : (listOf (passFold "*" m (listOf m "*")) "*").filter (pairMatch f c) = [] :=
      passFold_filter_unique "*" f c (listOf m "*") m h1 h1
    have FAe : ∀ r ∈ listOf (passFold "*" m (listOf m "*")) "*",
        pairMatch f c r = false :=
      fun r hr => by simpa using List.filter_eq_nil_iff.mp FA r hr
    have FB : (listOf (emitRegPassive m "*") "*").filter (pairMatch f c) = [] := by
      unfold emitRegPassive
      exact passFold_filter_nil "*" f c _ _ FAe FA
    have FBe : ∀ r ∈ listOf (emitRegPassive m "*") "*", pairMatch f c r = false :=
      fun r hr => by simpa using List.filter_eq_nil_iff.mp FB r hr
    have FC : (listOf (passFold "*" (emitRegPassive m "*")
        (listOf (emitRegPassive m "*") "*")) "*").filter (pairMatch f c) = [] :=
      passFold_filter_nil "*" f c _ _ FBe FB
    exact ⟨FA, FB, FB, FC⟩
  · have G1 : (listOf (passFold K m (listOf m K)) K).filter (pairMatch f c) = [] :=
      passFold_filter_unique K f c (listOf m K) m h1 h1
    have G2 : listOf (passFold K m (listOf m K)) "*" = listOf m "*" :=
      listOf_passFold_ne K "*" (Ne.symm hK) _ _
    have Gw : (listOf (passFold K m (listOf m K)) "*").filter (pairMatch f c) = [] := by
      rw [G2]
      exact h2 hK
    have Gwe : ∀ r ∈ listOf (passFold K m (listOf m K)) "*",
        pairMatch f c r = false :=
      fun r hr => by simpa using List.filter_eq_nil_iff.mp Gw r hr
    have H2 : listOf (emitRegPassive m K) K = listOf (passFold K m (listOf m K)) K := by
      unfold emitRegPassive
      exact listOf_passFold_ne "*" K hK _ _
    have H2f : (listOf (emitRegPassive m K) K).filter (pairMatch f c) = [] := by
      rw [H2]
      exact G1
    have H3 : (listOf (emitRegPassive m K) "*").filter (pairMatch f c) = [] := by
      unfold emitRegPassive
      exact passFold_filter_nil "*" f c _ _ Gwe Gw
    have H4 : (listOf (passFold K (emitRegPassive m K) (listOf (emitRegPassive m K) K))
        "*").filter (pairMatch f c) = [] := by
      rw [listOf_passFold_ne K "*" (Ne.symm hK) _ _]
      exact H3
    exact ⟨Gw, H2f, H3, H4⟩

/-- C4 amended: a once=true registration whose (callback, context) pair
occurs exactly once in K's list, and is not shared by any registration
the dispatch can also reach through the wildcard list, is invoked by two
successive emits exactly once in total, as a one-argument call with the
first emit's payload, and its pair is gone from K's list already after
the first emit (removal happens within the dispatch that invoked it).
With a duplicate pair in K's list this fails (see the counterexample):
the removal matches by callback and context and deletes the first
occurrence in list order. -/
theorem once_unique_pair_fires_once (env : Env) (m : Registry) (K : Key)
    (f : Nat) (c : Option Nat) (p1 p2 : Nat)
    (henv : ∀ i, env i = [])
    (h1 : (listOf m K).filter (pairMatch f c) = [⟨f, c, true⟩])
    (h2 : K ≠ "*" → (listOf m "*").filter (pairMatch f c) = []) :
    ((emit env m K p1).trace ++ (emit env (emit env m K p1).reg K p2).trace).filter
        (evMatch f c) = [Ev.invoke f c p1]
    ∧ (listOf (emit env m K p1).reg K).filter (pairMatch f c) = [] := by
  obtain ⟨Fmid, Freg, Fstar, Fmid2⟩ := once_filters m K f c h1 h2
  have hreg1 : (emit env m K p1).reg = emitRegPassive m K := by
    rw [emit_passive _ _ _ _ henv]
    rfl
  constructor
  · rw [List.filter_append]
    rw [emit_trace_filter env m K p1 f c henv]
    rw [emit_trace_filter env _ K p2 f c henv]
    rw [hreg1]
    rw [h1, Fmid, Freg, Fmid2]
    rfl
  · rw [hreg1]
    exact Freg

/-- Witness for C4 amended: a once handler alongside an ordinary one;
two emits fire the once pair exactly once, with the first payload, and
its pair is absent from the list after the first emit. -/
theorem once_unique_pair_fires_once_witness :
    ((emit passiveEnv [("foo", [⟨1, none, true⟩, ⟨2, none, false⟩])] "foo" 4).trace
        ++ (emit passiveEnv
            (emit passiveEnv [("foo", [⟨1, none, true⟩, ⟨2, none, false⟩])] "foo" 4).reg
            "foo" 5).trace).filter (evMatch 1 none)
      = [Ev.invoke 1 none 4]
    ∧ (listOf (emit passiveEnv [("foo", [⟨1, none, true⟩, ⟨2, none, false⟩])]
        "foo" 4).reg "foo").filter (pairMatch 1 none) = [] := by
  exact once_unique_pair_fires_once passiveEnv
    [("foo", [⟨1, none, true⟩, ⟨2, none, false⟩])] "foo" 1 none 4 5
    (fun _ => rfl) rfl (fun _ => rfl)

end Mitt
